import Mathlib

/-!
Shallow embedding of `src/i18n_validator/cli.py`, a pre-commit validator for
flat i18next translation JSON files.

Modelling conventions:
* Python strings are `List Char`.
* The decoded JSON document (`json.load`) is a tagged variant `JsonValue`;
  dict iteration order is the order of the association list.
* The file system is a function from a path string to the outcome of
  `open` + `json.load` for that path: either a decoded value, a
  `json.JSONDecodeError` (message, 1-based line and column), or any other
  exception (message) -- the two `except` arms of `validate_translation_file`.
* `pathlib.Path(s)` is modelled by the normalised string `pathStr s`
  (PurePosixPath: drop empty and `"."` components, collapse the root).
* The regular expression `_(zero|one|two|few|many|other)$` with `re.search`
  is modelled by its semantics: `$` (no MULTILINE flag) accepts the end of
  the string and the position just before one final newline character.
-/

/-- Python `s.replace(old, new)` restricted to one-character arguments. -/
def listReplace (old new : Char) (s : List Char) : List Char :=
  s.map (fun x => if x = old then new else x)

/-- Python `s.rstrip(c)` for a single strip character: remove every trailing
occurrence of `c`. -/
def rstripChar (c : Char) (s : List Char) : List Char :=
  (s.reverse.dropWhile (fun x => x = c)).reverse

/-- Python substring containment `sub in s`, on lists. -/
def isSublistB [BEq α] (sub s : List α) : Bool :=
  match s with
  | [] => sub.isEmpty
  | _ :: t => sub.isPrefixOf s || isSublistB sub t

/-- Components of a character list split at a separator character; there is
always at least one (possibly empty) component. -/
def splitSep (sep : Char) : List Char → List (List Char)
  | [] => [[]]
  | c :: rest =>
    if c = sep then [] :: splitSep sep rest
    else (c :: (splitSep sep rest).headI) :: (splitSep sep rest).tail

/-- Joining components with a separator character (inverse of `splitSep`). -/
def joinSep (sep : Char) : List (List Char) → List Char
  | [] => []
  | [x] => x
  | x :: y :: t => x ++ sep :: joinSep sep (y :: t)

/-- Normalised string form of `pathlib.Path(s)` on a POSIX platform
(`str(Path(s))`): empty and `"."` components are dropped, a leading `"//"`
(but not `"///"` or more) is preserved, and the empty path renders as `"."`.
Backslashes are ordinary characters on POSIX. -/
def pathStr (s : List Char) : List Char :=
  let parts := (splitSep '/' s).filter (fun comp => decide (comp ≠ [] ∧ comp ≠ ['.']))
  let body := joinSep '/' parts
  if ['/', '/'].isPrefixOf s && !(['/', '/', '/'].isPrefixOf s) then '/' :: '/' :: body
  else if ['/'].isPrefixOf s then '/' :: body
  else if body = [] then ['.'] else body

/-- Python `pathlib`'s `Path(p).suffix`: the extension of the final path
component, including its dot; empty when the final component has no dot, or
only a leading or trailing one. -/
def pathSuffix (p : List Char) : List Char :=
  let name := (splitSep '/' (pathStr p)).getLastD []
  let i := name.length - 1 - List.findIdx (fun c => c = '.') name.reverse
  if '.' ∈ name ∧ 0 < i ∧ i + 1 < name.length then name.drop i else []

/-- Python `str.lower()` (ASCII range suffices for the `".json"` check). -/
def lowerStr (s : List Char) : List Char :=
  s.map Char.toLower

/-- Decimal rendering of a number, as Python `str.format` does for an `int`. -/
def natStr (n : Nat) : List Char :=
  (Nat.repr n).toList

/-- Decoded JSON document: the possible results of Python's `json.load`.
Object entries keep insertion order, matching dict iteration order.
The numeric payload is irrelevant to every rule (only `isinstance(value, str)`
is ever tested), so numbers carry an opaque integer. -/
inductive JsonValue where
  | str (s : List Char)
  | num (n : Int)
  | bool (b : Bool)
  | null
  | arr (elems : List JsonValue)
  | obj (entries : List (List Char × JsonValue))

/-- The `ValidationError` record of `cli.py` (`key`, `error_type`, `message`). -/
structure ValidationError where
  key : List Char
  error_type : List Char
  message : List Char
deriving DecidableEq

/-- The exceptions `validate_translation_file` distinguishes: a
`json.JSONDecodeError` (with `msg`, 1-based `lineno` and `colno`) against any
other exception raised while opening, reading or decoding. -/
inductive PyExc where
  | jsonDecodeError (msg : List Char) (lineno colno : Nat)
  | otherExc (msg : List Char)

/-- The file system as seen by `validate_translation_file`: what
`open(filepath) ... json.load(f)` produces for each path, either a decoded
document or an exception. -/
def FileSystem : Type :=
  List Char → Except PyExc JsonValue

/-- The regex constant `PLURAL_SUFFIXES`: the six alternatives of
`_(zero|one|two|few|many|other)$`. -/
def PLURAL_SUFFIXES : List (List Char) :=
  ["_zero".toList, "_one".toList, "_two".toList, "_few".toList,
   "_many".toList, "_other".toList]

/-- Semantics of `PLURAL_SUFFIXES.search(value)`: with no MULTILINE flag,
`$` accepts the end of the string or the position just before one final
newline, so a match exists iff some alternative (with `group(0)` = the
underscore plus the word) is a terminal substring in that sense.  The
alternatives are pairwise non-overlapping at a fixed endpoint, so at most
one alternative can match (proved below), and `find?` returns it. -/
def pluralSearch (value : List Char) : Option (List Char) :=
  PLURAL_SUFFIXES.find?
    (fun suf => suf.isSuffixOf value || (suf ++ ['\n']).isSuffixOf value)

/-- The error record built by `find_empty_translations` for one key. -/
def emptyError (key : List Char) : ValidationError :=
  ⟨key, "Empty translation".toList, "translation value is an empty string".toList⟩

/-- The loop body of `find_empty_translations`: append an error when the
value is a string equal to `""`. -/
def emptyStep (errors : List ValidationError) (kv : List Char × JsonValue) :
    List ValidationError :=
  match kv.2 with
  | .str value => if value = [] then errors ++ [emptyError kv.1] else errors
  | _ => errors

/-- The function `find_empty_translations(data)` of `cli.py`. -/
def find_empty_translations (data : JsonValue) : List ValidationError :=
  match data with
  | .obj entries => entries.foldl emptyStep []
  | _ => []

/-- The error record built by `find_plural_suffix_in_values` for one key and
the matched suffix (`match.group(0)`). -/
def pluralError (key suffix : List Char) : ValidationError :=
  ⟨key, "Plural suffix in value".toList,
    "contains \"".toList ++ suffix ++ "\" (should be in key, not value)".toList⟩

/-- The loop body of `find_plural_suffix_in_values`: append an error when the
regex search finds a terminal plural suffix in a string value. -/
def pluralStep (errors : List ValidationError) (kv : List Char × JsonValue) :
    List ValidationError :=
  match kv.2 with
  | .str value =>
    match pluralSearch value with
    | some suffix => errors ++ [pluralError kv.1 suffix]
    | none => errors
  | _ => errors

/-- The function `find_plural_suffix_in_values(data)` of `cli.py`. -/
def find_plural_suffix_in_values (data : JsonValue) : List ValidationError :=
  match data with
  | .obj entries => entries.foldl pluralStep []
  | _ => []

/-- The function `validate_translation_file(filepath)` of `cli.py`, with the
file system explicit.  The `try` body parses the file and runs both rules;
`except json.JSONDecodeError` and `except Exception` each convert the failure
into a single synthetic error record.  Returns `(len(errors) == 0, errors)`. -/
def validate_translation_file (fs : FileSystem) (filepath : List Char) :
    Bool × List ValidationError :=
  let errors : List ValidationError :=
    match fs (pathStr filepath) with
    | .ok data =>
        find_empty_translations data ++ find_plural_suffix_in_values data
    | .error (.jsonDecodeError msg lineno colno) =>
        [⟨"FILE".toList, "JSON Parse Error".toList,
          "Invalid JSON: ".toList ++ msg ++ " at line ".toList ++ natStr lineno
            ++ ", column ".toList ++ natStr colno⟩]
    | .error (.otherExc msg) =>
        [⟨"FILE".toList, "Error".toList, "Failed to read file: ".toList ++ msg⟩]
  (errors.isEmpty, errors)

/-- Normalisation `cli.py` applies to one entry of `translation_dirs`:
`trans_dir.rstrip('/').rstrip('\\').replace('\\', '/')`. -/
def normalizedDir (trans_dir : List Char) : List Char :=
  listReplace '\\' '/' (rstripChar '\\' (rstripChar '/' trans_dir))

/-- Normalisation `cli.py` applies to the candidate path:
`str(filepath).replace('\\', '/')`. -/
def candidateStr (filepath : List Char) : List Char :=
  listReplace '\\' '/' (pathStr filepath)

/-- The function `should_process_file(filepath, translation_dirs)` of
`cli.py`: accept everything when no directory is configured, otherwise test
`'/{dir}/' in '/{path}/' or path.startswith('{dir}/')` for each directory. -/
def should_process_file (filepath : List Char)
    (translation_dirs : List (List Char)) : Bool :=
  if translation_dirs.isEmpty then true
  else
    let filepath_str := candidateStr filepath
    translation_dirs.any fun trans_dir =>
      let nd := normalizedDir trans_dir
      isSublistB ('/' :: nd ++ ['/']) ('/' :: filepath_str ++ ['/'])
        || (nd ++ ['/']).isPrefixOf filepath_str

/-- Exit code `PASS` of `cli.py`. -/
def PASS : Nat := 0

/-- Exit code `FAIL` of `cli.py`. -/
def FAIL : Nat := 1

/-- How `main` turns the single `--translation-dir` option into the list
passed to `should_process_file`: the empty string (the default, falsy in
Python) yields no filter at all. -/
def translationDirsOf (translation_dir : List Char) : List (List Char) :=
  if translation_dir.isEmpty then [] else [translation_dir]

/-- The body of `main`'s loop over `args.filenames`: skip files whose
lower-cased `Path.suffix` is not `.json`, skip files outside the translation
directories, validate the rest, and latch the exit code to `FAIL` on an
invalid file. -/
def fileStep (fs : FileSystem) (translation_dirs : List (List Char))
    (exit_code : Nat) (filename : List Char) : Nat :=
  if lowerStr (pathSuffix filename) = ".json".toList then
    if should_process_file filename translation_dirs then
      if (validate_translation_file fs filename).1 then exit_code else FAIL
    else exit_code
  else exit_code

namespace i18n_validator

/-- The function `main(argv)` of `cli.py` after argument parsing: `filenames`
and `translation_dir` are the parsed arguments (printing does not affect the
returned exit code and is omitted). -/
def main (filenames : List (List Char)) (translation_dir : List Char)
    (fs : FileSystem) : Nat :=
  let translation_dirs := translationDirsOf translation_dir
  if filenames.isEmpty then PASS
  else filenames.foldl (fileStep fs translation_dirs) PASS

end i18n_validator

/-- Boolean test used by the loop of `find_empty_translations`:
`isinstance(value, str) and value == ""`. -/
def isEmptyStrVal : JsonValue → Bool
  | .str value => value.isEmpty
  | _ => false

/-- Option-valued view of one iteration of `find_plural_suffix_in_values`. -/
def pluralCheck (kv : List Char × JsonValue) : Option ValidationError :=
  match kv.2 with
  | .str value => (pluralSearch value).map (fun suffix => pluralError kv.1 suffix)
  | _ => none

/-- The six suffixes exactly as the specification enumerates them. -/
def claimSuffixes : List (List Char) :=
  ["_zero".toList, "_one".toList, "_two".toList, "_few".toList,
   "_many".toList, "_other".toList]

/-- The Plural-Suffix condition exactly as the claim words it: the value ends
with one of the six suffixes and no characters of any kind follow it. -/
def claimEndsWithSuffixNoTrail (value : List Char) : Bool :=
  claimSuffixes.any (fun suf => suf.isSuffixOf value)

/-- Directory normalisation exactly as the claim words it: backslashes become
forward slashes, then trailing separators are ignored. -/
def claimDirNormalized (trans_dir : List Char) : List Char :=
  rstripChar '/' (listReplace '\\' '/' trans_dir)

/-- Path-Filter matching exactly as the claim words it: the normalised
directory occurs as a full path component (or consecutive component
sequence) of the candidate path. -/
def claimComponentMatch (trans_dir filepath : List Char) : Bool :=
  isSublistB (splitSep '/' (claimDirNormalized trans_dir))
    (splitSep '/' (candidateStr filepath))

/-- Whether one filename makes `main` fail: in scope, `.json`-suffixed, and
invalid. -/
def fileFails (fs : FileSystem) (translation_dirs : List (List Char))
    (filename : List Char) : Bool :=
  decide (lowerStr (pathSuffix filename) = ".json".toList)
    && should_process_file filename translation_dirs
    && !(validate_translation_file fs filename).1

theorem isSublistB_iff [BEq α] [LawfulBEq α] (sub s : List α) :
    isSublistB sub s = true ↔ sub <:+: s := by
  induction s with
  | nil =>
    simp [isSublistB]
  | cons a t ih =>
    simp [isSublistB, ih, List.infix_cons_iff]

theorem splitSep_ne_nil (sep : Char) (l : List Char) : splitSep sep l ≠ [] := by
  cases l with
  | nil => simp [splitSep]
  | cons c rest =>
    simp only [splitSep]
    split <;> simp

theorem splitSep_cons_sep (sep : Char) (rest : List Char) :
    splitSep sep (sep :: rest) = [] :: splitSep sep rest := by
  simp [splitSep]

theorem splitSep_cons_ne {sep c : Char} (rest : List Char) (hc : c ≠ sep)
    {h0 : List Char} {t0 : List (List Char)}
    (hr : splitSep sep rest = h0 :: t0) :
    splitSep sep (c :: rest) = (c :: h0) :: t0 := by
  simp [splitSep, hc, hr]

theorem splitSep_shape (sep : Char) (l : List Char) :
    ∃ h0 t0, splitSep sep l = h0 :: t0 := by
  rcases hl : splitSep sep l with _ | ⟨h0, t0⟩
  · exact absurd hl (splitSep_ne_nil sep l)
  · exact ⟨h0, t0, rfl⟩

theorem splitSep_sep_free (sep : Char) (l : List Char) :
    ∀ x ∈ splitSep sep l, sep ∉ x := by
  induction l with
  | nil =>
    intro x hx
    simp [splitSep] at hx
    simp [hx]
  | cons c rest ih =>
    intro x hx
    by_cases hc : c = sep
    · subst hc
      rw [splitSep_cons_sep] at hx
      rcases List.mem_cons.mp hx with h | h
      · simp [h]
      · exact ih x h
    · obtain ⟨h0, t0, hr⟩ := splitSep_shape sep rest
      rw [splitSep_cons_ne rest hc hr] at hx
      rcases List.mem_cons.mp hx with h | h
      · subst h
        intro hmem
        rcases List.mem_cons.mp hmem with h' | h'
        · exact hc h'.symm
        · exact ih h0 (hr ▸ List.mem_cons_self h0 t0) h'
      · exact ih x (hr ▸ List.mem_cons_of_mem h0 h)

theorem joinSep_cons_cons (sep : Char) (x y : List Char) (t : List (List Char)) :
    joinSep sep (x :: y :: t) = x ++ sep :: joinSep sep (y :: t) := rfl

theorem joinSep_splitSep (sep : Char) (l : List Char) :
    joinSep sep (splitSep sep l) = l := by
  induction l with
  | nil => rfl
  | cons c rest ih =>
    obtain ⟨h0, t0, hr⟩ := splitSep_shape sep rest
    by_cases hc : c = sep
    · subst hc
      rw [splitSep_cons_sep, hr, joinSep_cons_cons, ← hr, ih]
      rfl
    · rw [splitSep_cons_ne rest hc hr]
      cases t0 with
      | nil =>
        show c :: h0 = c :: rest
        have := ih
        rw [hr] at this
        simp [joinSep] at this
        simp [this]
      | cons y t1 =>
        rw [joinSep_cons_cons]
        have := ih
        rw [hr, joinSep_cons_cons] at this
        simp only [List.cons_append]
        rw [this]

theorem splitSep_sepFree (sep : Char) (x : List Char) (hx : sep ∉ x) :
    splitSep sep x = [x] := by
  induction x with
  | nil => rfl
  | cons c rest ih =>
    have hc : c ≠ sep := fun h => hx (h ▸ List.mem_cons_self c rest)
    have hrest : sep ∉ rest := fun h => hx (List.mem_cons_of_mem c h)
    rw [splitSep_cons_ne rest hc (ih hrest)]

theorem splitSep_append_sep (sep : Char) (x r : List Char) (hx : sep ∉ x) :
    splitSep sep (x ++ sep :: r) = x :: splitSep sep r := by
  induction x with
  | nil => simp [splitSep_cons_sep]
  | cons c rest ih =>
    have hc : c ≠ sep := fun h => hx (h ▸ List.mem_cons_self c rest)
    have hrest : sep ∉ rest := fun h => hx (List.mem_cons_of_mem c h)
    have := ih hrest
    simp only [List.cons_append]
    obtain ⟨h0, t0, hr⟩ := splitSep_shape sep (rest ++ sep :: r)
    rw [splitSep_cons_ne (rest ++ sep :: r) hc hr]
    rw [hr] at this
    injection this with h1 h2
    rw [h1, h2]

theorem splitSep_joinSep (sep : Char) :
    ∀ (K : List (List Char)), K ≠ [] → (∀ x ∈ K, sep ∉ x) →
    splitSep sep (joinSep sep K) = K
  | [], h, _ => absurd rfl h
  | [x], _, hsf => by
    simp only [joinSep]
    exact splitSep_sepFree sep x (hsf x (List.mem_cons_self x []))
  | x :: y :: t, _, hsf => by
    rw [joinSep_cons_cons]
    rw [splitSep_append_sep sep x (joinSep sep (y :: t))
      (hsf x (List.mem_cons_self x (y :: t)))]
    rw [splitSep_joinSep sep (y :: t) (by simp)
      (fun z hz => hsf z (List.mem_cons_of_mem x hz))]

theorem joinSep_append (sep : Char) :
    ∀ (K L : List (List Char)), K ≠ [] → L ≠ [] →
    joinSep sep (K ++ L) = joinSep sep K ++ sep :: joinSep sep L
  | [], _, hK, _ => absurd rfl hK
  | [x], L, _, hL => by
    cases L with
    | nil => exact absurd rfl hL
    | cons y t => simp [joinSep_cons_cons, joinSep]
  | x :: y :: t, L, _, hL => by
    have := joinSep_append sep (y :: t) L (by simp) hL
    simp only [List.cons_append, joinSep_cons_cons]
    rw [List.cons_append] at this
    rw [this]
    simp [joinSep_cons_cons]

theorem append_sep_align {sep : Char} (a : List Char) :
    ∀ (b x y : List Char), sep ∉ a → sep ∉ b →
    (x = [] ∨ x.head? = some sep) → (y = [] ∨ y.head? = some sep) →
    a ++ x = b ++ y → a = b ∧ x = y := by
  induction a with
  | nil =>
    intro b x y _ hb hx _ he
    cases b with
    | nil => exact ⟨rfl, he⟩
    | cons c b' =>
      exfalso
      simp only [List.nil_append, List.cons_append] at he
      rcases hx with h | h
      · rw [h] at he
        exact List.cons_ne_nil c (b' ++ y) he.symm
      · rw [he] at h
        simp only [List.head?_cons, Option.some.injEq] at h
        exact hb (by rw [← h]; exact List.mem_cons_self c b')
  | cons c a' ih =>
    intro b x y ha hb hx hy he
    cases b with
    | nil =>
      exfalso
      simp only [List.cons_append, List.nil_append] at he
      rcases hy with h | h
      · rw [h] at he
        exact List.cons_ne_nil c (a' ++ x) he
      · rw [← he] at h
        simp only [List.head?_cons, Option.some.injEq] at h
        exact ha (by rw [← h]; exact List.mem_cons_self c a')
    | cons d b' =>
      simp only [List.cons_append] at he
      injection he with h1 h2
      have ha' : sep ∉ a' := fun hm => ha (List.mem_cons_of_mem c hm)
      have hb' : sep ∉ b' := fun hm => hb (List.mem_cons_of_mem d hm)
      obtain ⟨hab, hxy⟩ := ih b' x y ha' hb' hx hy h2
      exact ⟨by rw [h1, hab], hxy⟩

theorem mem_split_first {sep : Char} (l : List Char) (hmem : sep ∈ l) :
    ∃ u v, l = u ++ sep :: v ∧ sep ∉ u := by
  induction l with
  | nil => cases hmem
  | cons c t ih =>
    by_cases hc : c = sep
    · exact ⟨[], t, by rw [hc]; rfl, by simp⟩
    · have hmt : sep ∈ t := by
        rcases List.mem_cons.mp hmem with h | h
        · exact absurd h.symm hc
        · exact h
      obtain ⟨u, v, hl, hu⟩ := ih hmt
      refine ⟨c :: u, v, by rw [List.cons_append, hl], ?_⟩
      intro hm
      rcases List.mem_cons.mp hm with h | h
      · exact hc h.symm
      · exact hu h

theorem joinSep_prefix {sep : Char} :
    ∀ (K L : List (List Char)) (r : List Char), K ≠ [] → L ≠ [] →
    (∀ x ∈ K, sep ∉ x) → (∀ x ∈ L, sep ∉ x) →
    (r = [] ∨ r.head? = some sep) →
    joinSep sep K ++ r = joinSep sep L → K <+: L
  | [], _, _, hK, _, _, _, _, _ => absurd rfl hK
  | [k], l :: L', r, _, _, hsfK, hsfL, hr, he => by
    have hk : sep ∉ k := hsfK k (List.mem_cons_self k [])
    have hl : sep ∉ l := hsfL l (List.mem_cons_self l L')
    cases L' with
    | nil =>
      simp only [joinSep] at he
      obtain ⟨h1, _⟩ :=
        append_sep_align k l r [] hk hl hr (Or.inl rfl) (by simpa using he)
      rw [h1]
    | cons y t =>
      rw [joinSep_cons_cons] at he
      simp only [joinSep] at he
      obtain ⟨h1, _⟩ :=
        append_sep_align k l r (sep :: joinSep sep (y :: t)) hk hl hr (Or.inr rfl) he
      rw [h1]
      exact ⟨y :: t, rfl⟩
  | k :: k2 :: K', l :: L', r, _, _, hsfK, hsfL, hr, he => by
    have hk : sep ∉ k := hsfK k (List.mem_cons_self _ _)
    have hl : sep ∉ l := hsfL l (List.mem_cons_self _ _)
    rw [joinSep_cons_cons] at he
    cases L' with
    | nil =>
      exfalso
      simp only [joinSep] at he
      have hcount := congrArg (List.count sep) he
      have h0 : List.count sep l = 0 := List.count_eq_zero.mpr hl
      simp [List.count_append, List.count_cons_self, h0] at hcount
    | cons y t =>
      rw [joinSep_cons_cons] at he
      have he' : k ++ sep :: (joinSep sep (k2 :: K') ++ r)
          = l ++ sep :: joinSep sep (y :: t) := by
        simpa [List.append_assoc] using he
      obtain ⟨h1, h2⟩ :=
        append_sep_align k l (sep :: (joinSep sep (k2 :: K') ++ r))
          (sep :: joinSep sep (y :: t)) hk hl (Or.inr rfl) (Or.inr rfl) he'
      injection h2 with _ h3
      have hpre := joinSep_prefix (k2 :: K') (y :: t) r (by simp) (by simp)
        (fun z hz => hsfK z (List.mem_cons_of_mem k hz))
        (fun z hz => hsfL z (List.mem_cons_of_mem l hz)) hr h3
      rw [h1]
      exact List.cons_prefix_cons.mpr ⟨rfl, hpre⟩

theorem joinSep_prefix_of_tail {sep : Char} (K M : List (List Char)) (t : List Char)
    (hK : K ≠ []) (hM : M ≠ [])
    (hsfK : ∀ x ∈ K, sep ∉ x) (hsfM : ∀ x ∈ M, sep ∉ x)
    (he : joinSep sep K ++ [sep] ++ t = joinSep sep M ++ [sep]) : K <+: M := by
  rcases List.eq_nil_or_concat' t with ht | ⟨t', b, ht⟩
  · subst ht
    simp only [List.append_nil] at he
    have hjoin : joinSep sep K = joinSep sep M := List.append_cancel_right he
    have hKM : K = M := by
      have h1 := splitSep_joinSep sep K hK hsfK
      have h2 := splitSep_joinSep sep M hM hsfM
      rw [← h1, ← h2, hjoin]
    rw [hKM]
  · subst ht
    have he' : (joinSep sep K ++ sep :: t') ++ [b] = joinSep sep M ++ [sep] := by
      simpa [List.append_assoc] using he
    obtain ⟨h1, _⟩ := List.append_inj' he' rfl
    exact joinSep_prefix K M (sep :: t') hK hM hsfK hsfM (Or.inr rfl) h1

theorem wrap_infix_fwd (sep : Char) (L : List (List Char)) :
    ∀ (K : List (List Char)), K ≠ [] → L ≠ [] →
    (∀ x ∈ K, sep ∉ x) → (∀ x ∈ L, sep ∉ x) →
    (sep :: joinSep sep K ++ [sep]) <:+: (sep :: joinSep sep L ++ [sep]) →
    K <:+: L := by
  induction L with
  | nil =>
    intro K _ hL _ _ _
    exact absurd rfl hL
  | cons l L' ih =>
    intro K hK _ hsfK hsfL hinf
    obtain ⟨s, t, hst⟩ := hinf
    have hl : sep ∉ l := hsfL l (List.mem_cons_self l L')
    cases s with
    | nil =>
      simp only [List.nil_append, List.cons_append] at hst
      injection hst with _ h2
      have h2' : joinSep sep K ++ [sep] ++ t = joinSep sep (l :: L') ++ [sep] := by
        simpa [List.append_assoc] using h2
      exact (joinSep_prefix_of_tail K (l :: L') t hK (by simp) hsfK hsfL h2').isInfix
    | cons s0 s' =>
      simp only [List.cons_append] at hst
      injection hst with h1 h2
      cases L' with
      | nil =>
        exfalso
        simp only [joinSep] at h2
        have hcount := congrArg (List.count sep) h2
        have h0 : List.count sep l = 0 := List.count_eq_zero.mpr hl
        simp [List.count_append, List.count_cons_self, h0] at hcount
        omega
      | cons y t1 =>
        rw [joinSep_cons_cons] at h2
        by_cases hmem : sep ∈ s'
        · obtain ⟨u, v, hs', hu⟩ := mem_split_first s' hmem
          rw [hs'] at h2
          have he2 : u ++ sep :: (v ++ (sep :: (joinSep sep K ++ [sep])) ++ t)
              = l ++ sep :: (joinSep sep (y :: t1) ++ [sep]) := by
            simpa [List.append_assoc] using h2
          obtain ⟨_, hxy⟩ :=
            append_sep_align u l (sep :: (v ++ (sep :: (joinSep sep K ++ [sep])) ++ t))
              (sep :: (joinSep sep (y :: t1) ++ [sep])) hu hl (Or.inr rfl) (Or.inr rfl) he2
          injection hxy with _ h3
          have hrec : (sep :: joinSep sep K ++ [sep])
              <:+: (sep :: joinSep sep (y :: t1) ++ [sep]) := by
            refine ⟨sep :: v, t, ?_⟩
            have hc := congrArg (fun z => sep :: z) h3
            simpa [List.cons_append, List.append_assoc] using hc
          have hKL' : K <:+: (y :: t1) :=
            ih K hK (by simp) hsfK (fun z hz => hsfL z (List.mem_cons_of_mem l hz)) hrec
          obtain ⟨p, q, hpq⟩ := hKL'
          exact ⟨l :: p, q, by rw [← hpq]; simp⟩
        · have he2 : s' ++ sep :: (joinSep sep K ++ [sep] ++ t)
              = l ++ sep :: (joinSep sep (y :: t1) ++ [sep]) := by
            simpa [List.append_assoc] using h2
          obtain ⟨_, hxy⟩ :=
            append_sep_align s' l (sep :: (joinSep sep K ++ [sep] ++ t))
              (sep :: (joinSep sep (y :: t1) ++ [sep])) hmem hl (Or.inr rfl) (Or.inr rfl) he2
          injection hxy with _ h3
          have hpre := joinSep_prefix_of_tail K (y :: t1) t hK (by simp) hsfK
            (fun z hz => hsfL z (List.mem_cons_of_mem l hz)) h3
          obtain ⟨q, hq⟩ := hpre
          exact ⟨[l], q, by rw [← hq]; simp⟩

theorem wrap_infix_bwd (sep : Char) (L K : List (List Char)) (hK : K ≠ [])
    (hinf : K <:+: L) :
    (sep :: joinSep sep K ++ [sep]) <:+: (sep :: joinSep sep L ++ [sep]) := by
  obtain ⟨P, Q, hPQ⟩ := hinf
  subst hPQ
  rcases P with _ | ⟨p0, P'⟩ <;> rcases Q with _ | ⟨q0, Q'⟩
  · simp
  · rw [List.nil_append, joinSep_append sep K (q0 :: Q') hK (by simp)]
    refine ⟨[], joinSep sep (q0 :: Q') ++ [sep], ?_⟩
    simp
  · rw [List.append_nil, joinSep_append sep (p0 :: P') K (by simp) hK]
    refine ⟨sep :: joinSep sep (p0 :: P'), [], ?_⟩
    simp
  · rw [List.append_assoc,
      joinSep_append sep (p0 :: P') (K ++ q0 :: Q') (by simp) (by simp),
      joinSep_append sep K (q0 :: Q') hK (by simp)]
    refine ⟨sep :: joinSep sep (p0 :: P'), joinSep sep (q0 :: Q') ++ [sep], ?_⟩
    simp

theorem wrap_infix_iff (sep : Char) (a b : List Char) :
    (sep :: a ++ [sep]) <:+: (sep :: b ++ [sep])
      ↔ splitSep sep a <:+: splitSep sep b := by
  constructor
  · intro h
    refine wrap_infix_fwd sep (splitSep sep b) (splitSep sep a)
      (splitSep_ne_nil sep a) (splitSep_ne_nil sep b)
      (splitSep_sep_free sep a) (splitSep_sep_free sep b) ?_
    rw [joinSep_splitSep, joinSep_splitSep]
    exact h
  · intro h
    have hres := wrap_infix_bwd sep (splitSep sep b) (splitSep sep a)
      (splitSep_ne_nil sep a) h
    rw [joinSep_splitSep, joinSep_splitSep] at hres
    exact hres

theorem foldl_emptyStep (entries : List (List Char × JsonValue)) :
    ∀ (acc : List ValidationError),
    entries.foldl emptyStep acc
      = acc ++ (entries.filter (fun kv => isEmptyStrVal kv.2)).map
          (fun kv => emptyError kv.1) := by
  induction entries with
  | nil => intro acc; simp
  | cons kv t ih =>
    intro acc
    obtain ⟨k, v⟩ := kv
    cases v with
    | str value =>
      by_cases hv : value = []
      · subst hv
        simp [emptyStep, isEmptyStrVal, ih, List.filter_cons]
      · simp [emptyStep, isEmptyStrVal, ih, List.filter_cons, hv,
          List.isEmpty_iff]
    | num n => simp [emptyStep, isEmptyStrVal, ih, List.filter_cons]
    | bool b => simp [emptyStep, isEmptyStrVal, ih, List.filter_cons]
    | null => simp [emptyStep, isEmptyStrVal, ih, List.filter_cons]
    | arr elems => simp [emptyStep, isEmptyStrVal, ih, List.filter_cons]
    | obj entries2 => simp [emptyStep, isEmptyStrVal, ih, List.filter_cons]

theorem foldl_pluralStep (entries : List (List Char × JsonValue)) :
    ∀ (acc : List ValidationError),
    entries.foldl pluralStep acc = acc ++ entries.filterMap pluralCheck := by
  induction entries with
  | nil => intro acc; simp
  | cons kv t ih =>
    intro acc
    obtain ⟨k, v⟩ := kv
    cases v with
    | str value =>
      cases hs : pluralSearch value with
      | some suffix =>
        simp [pluralStep, pluralCheck, ih, hs, List.filterMap_cons]
      | none =>
        simp [pluralStep, pluralCheck, ih, hs, List.filterMap_cons]
    | num n => simp [pluralStep, pluralCheck, ih, List.filterMap_cons]
    | bool b => simp [pluralStep, pluralCheck, ih, List.filterMap_cons]
    | null => simp [pluralStep, pluralCheck, ih, List.filterMap_cons]
    | arr elems => simp [pluralStep, pluralCheck, ih, List.filterMap_cons]
    | obj entries2 => simp [pluralStep, pluralCheck, ih, List.filterMap_cons]

theorem getLast?_of_suffix {x z : List Char} (h : x <:+ z) (hx : x ≠ []) :
    z.getLast? = x.getLast? := by
  obtain ⟨t, rfl⟩ := h
  rw [List.getLast?_append]
  cases hlast : x.getLast? with
  | none => exact absurd (List.getLast?_eq_none_iff.mp hlast) hx
  | some a => simp

theorem suffix_snoc_cancel {x y : List Char} {c : Char}
    (h : x ++ [c] <:+ y ++ [c]) : x <:+ y := by
  obtain ⟨t, ht⟩ := h
  have ht' : (t ++ x) ++ [c] = y ++ [c] := by simpa [List.append_assoc] using ht
  exact ⟨t, List.append_cancel_right ht'⟩

theorem pluralHit_unique (value : List Char) :
    ∀ x ∈ PLURAL_SUFFIXES, ∀ y ∈ PLURAL_SUFFIXES,
    (x <:+ value ∨ (x ++ ['\n']) <:+ value) →
    (y <:+ value ∨ (y ++ ['\n']) <:+ value) → x = y := by
  have hpair : ∀ x ∈ PLURAL_SUFFIXES, ∀ y ∈ PLURAL_SUFFIXES, x <:+ y → x = y := by
    decide
  have hlast : ∀ x ∈ PLURAL_SUFFIXES, x ≠ [] ∧ x.getLast? ≠ some '\n' := by
    decide
  intro x hx y hy hhx hhy
  rcases hhx with h1 | h1 <;> rcases hhy with h2 | h2
  · rcases List.suffix_or_suffix_of_suffix h1 h2 with h | h
    · exact hpair x hx y hy h
    · exact (hpair y hy x hx h).symm
  · exfalso
    rcases List.suffix_or_suffix_of_suffix h1 h2 with h | h
    · have hg := getLast?_of_suffix h (hlast x hx).1
      rw [List.getLast?_concat] at hg
      exact (hlast x hx).2 hg.symm
    · have hn : ['\n'] <:+ x := List.IsSuffix.trans (List.suffix_append y ['\n']) h
      have hg := getLast?_of_suffix hn (by simp)
      exact (hlast x hx).2 (by simpa using hg)
  · exfalso
    rcases List.suffix_or_suffix_of_suffix h1 h2 with h | h
    · have hn : ['\n'] <:+ y := List.IsSuffix.trans (List.suffix_append x ['\n']) h
      have hg := getLast?_of_suffix hn (by simp)
      exact (hlast y hy).2 (by simpa using hg)
    · have hg := getLast?_of_suffix h (hlast y hy).1
      rw [List.getLast?_concat] at hg
      exact (hlast y hy).2 hg.symm
  · rcases List.suffix_or_suffix_of_suffix h1 h2 with h | h
    · exact hpair x hx y hy (suffix_snoc_cancel h)
    · exact (hpair y hy x hx (suffix_snoc_cancel h)).symm

theorem find?_eq_some_of_mem_unique {α : Type} {l : List α} {p : α → Bool} {x : α}
    (hmem : x ∈ l) (hpx : p x = true)
    (huniq : ∀ y ∈ l, p y = true → y = x) :
    l.find? p = some x := by
  induction l with
  | nil => cases hmem
  | cons a t ih =>
    by_cases ha : p a = true
    · rw [List.find?_cons_of_pos t ha]
      exact congrArg some (huniq a (List.mem_cons_self a t) ha)
    · rw [List.find?_cons_of_neg t ha]
      have hx : x ∈ t := by
        rcases List.mem_cons.mp hmem with h | h
        · exact absurd (h ▸ hpx) ha
        · exact h
      exact ih hx (fun y hy hpy => huniq y (List.mem_cons_of_mem a hy) hpy)

theorem pluralSearch_eq_some (value suf : List Char)
    (hmem : suf ∈ PLURAL_SUFFIXES)
    (hhit : suf <:+ value ∨ (suf ++ ['\n']) <:+ value) :
    pluralSearch value = some suf := by
  apply find?_eq_some_of_mem_unique hmem
  · simpa [List.isSuffixOf_iff_suffix] using hhit
  · intro y hy hpy
    exact pluralHit_unique value y hy suf hmem
      (by simpa [List.isSuffixOf_iff_suffix] using hpy) hhit

theorem pluralSearch_some_iff (value suf : List Char) :
    pluralSearch value = some suf
      ↔ suf ∈ PLURAL_SUFFIXES ∧ (suf <:+ value ∨ (suf ++ ['\n']) <:+ value) := by
  constructor
  · intro h
    refine ⟨List.mem_of_find?_eq_some h, ?_⟩
    have hp := List.find?_some h
    simpa [List.isSuffixOf_iff_suffix] using hp
  · intro h
    exact pluralSearch_eq_some value suf h.1 h.2

theorem pluralSearch_isSome_iff (value : List Char) :
    (pluralSearch value).isSome = true
      ↔ ∃ suf ∈ PLURAL_SUFFIXES, (suf <:+ value ∨ (suf ++ ['\n']) <:+ value) := by
  constructor
  · intro h
    obtain ⟨suf, hsuf⟩ := Option.isSome_iff_exists.mp h
    obtain ⟨hmem, hhit⟩ := (pluralSearch_some_iff value suf).mp hsuf
    exact ⟨suf, hmem, hhit⟩
  · intro h
    obtain ⟨suf, hmem, hhit⟩ := h
    rw [pluralSearch_eq_some value suf hmem hhit]
    rfl

theorem fileStep_eq (fs : FileSystem) (translation_dirs : List (List Char))
    (exit_code : Nat) (filename : List Char) :
    fileStep fs translation_dirs exit_code filename
      = if fileFails fs translation_dirs filename then FAIL else exit_code := by
  unfold fileStep fileFails
  by_cases h1 : lowerStr (pathSuffix filename) = ".json".toList <;>
    by_cases h2 : should_process_file filename translation_dirs = true <;>
      by_cases h3 : (validate_translation_file fs filename).1 = true <;>
        simp_all

theorem foldl_fileStep (fs : FileSystem) (translation_dirs : List (List Char)) :
    ∀ (l : List (List Char)) (acc : Nat),
    l.foldl (fileStep fs translation_dirs) acc
      = if l.any (fileFails fs translation_dirs) then FAIL else acc := by
  intro l
  induction l with
  | nil => intro acc; simp
  | cons f t ih =>
    intro acc
    rw [List.foldl_cons, fileStep_eq, List.any_cons]
    by_cases hf : fileFails fs translation_dirs f = true
    · rw [if_pos hf, ih FAIL, hf]
      simp
    · have hf' : fileFails fs translation_dirs f = false := by
        cases h : fileFails fs translation_dirs f
        · rfl
        · exact absurd h hf
      rw [if_neg hf, ih acc, hf']
      simp

/-- C5: for every mapping input the Empty-Value Detector emits exactly one
finding per entry whose value is the empty string (in catalog order), the
finding count equals the count of such entries, and every non-mapping input
yields zero findings; whitespace-only strings and non-string values never
produce a finding (they fail the `value = ""` filter). -/
theorem claim5_empty_value_detector :
    (∀ entries : List (List Char × JsonValue),
      find_empty_translations (.obj entries)
        = (entries.filter (fun kv => isEmptyStrVal kv.2)).map
            (fun kv => emptyError kv.1))
    ∧ (∀ entries : List (List Char × JsonValue),
      (find_empty_translations (.obj entries)).length
        = entries.countP (fun kv => isEmptyStrVal kv.2))
    ∧ (∀ s : List Char, find_empty_translations (.str s) = [])
    ∧ (∀ n : Int, find_empty_translations (.num n) = [])
    ∧ (∀ b : Bool, find_empty_translations (.bool b) = [])
    ∧ find_empty_translations .null = []
    ∧ (∀ elems : List JsonValue, find_empty_translations (.arr elems) = []) := by
  refine ⟨?_, ?_, fun s => rfl, fun n => rfl, fun b => rfl, rfl, fun es => rfl⟩
  · intro entries
    change entries.foldl emptyStep [] = _
    rw [foldl_emptyStep entries []]
    simp
  · intro entries
    change (entries.foldl emptyStep []).length = _
    rw [foldl_emptyStep entries []]
    simp [List.countP_eq_length_filter]

/-- C1 counterexample: on the entry `"count": "items_one\n"` the detector
does emit a finding although the value does not end with any of the six
suffixes (a newline follows `_one`), refuting the claim's "no characters of
any kind following the suffix" reading of the regex. -/
theorem claim1_trailing_newline_cex :
    find_plural_suffix_in_values
        (.obj [("count".toList, .str "items_one\n".toList)])
      = [pluralError "count".toList "_one".toList]
    ∧ claimEndsWithSuffixNoTrail "items_one\n".toList = false := by
  constructor
  · rfl
  · rfl

/-- C1 (amended): the Plural-Suffix Detector emits a finding for an entry iff
its string value ends with one of exactly the six suffixes either at the very
end of the string or immediately before a single final newline (the regex
end-anchor's semantics); the match is case-sensitive, a suffix occurring
anywhere else never fires, the emitted finding names the matched suffix, and
the findings follow catalog order. -/
theorem claim1_plural_terminal_suffix :
    (∀ value : List Char,
      (pluralSearch value).isSome = true
        ↔ ∃ suf ∈ claimSuffixes, (suf <:+ value ∨ (suf ++ ['\n']) <:+ value))
    ∧ (∀ (value suf : List Char), suf ∈ claimSuffixes →
        (suf <:+ value ∨ (suf ++ ['\n']) <:+ value) →
        pluralSearch value = some suf)
    ∧ (∀ entries : List (List Char × JsonValue),
      find_plural_suffix_in_values (.obj entries)
        = entries.filterMap pluralCheck)
    ∧ (∀ s : List Char, find_plural_suffix_in_values (.str s) = []) := by
  have hcs : claimSuffixes = PLURAL_SUFFIXES := rfl
  refine ⟨?_, ?_, ?_, fun s => rfl⟩
  · intro value
    rw [hcs]
    exact pluralSearch_isSome_iff value
  · intro value suf hmem hhit
    exact pluralSearch_eq_some value suf (hcs ▸ hmem) hhit
  · intro entries
    change entries.foldl pluralStep [] = _
    rw [foldl_pluralStep]
    simp

theorem claim1_plural_terminal_suffix_witness :
    pluralSearch "items_one".toList = some "_one".toList :=
  claim1_plural_terminal_suffix.2.1 "items_one".toList "_one".toList
    (by decide) (Or.inl (by decide))

/-- C9: a string value that ends with a plural suffix followed by exactly one
newline is still flagged (the regex `$` also matches before a single final
newline) and the finding names that suffix; with two or more trailing
newlines nothing is flagged. -/
theorem claim9_newline_anchor :
    (∀ (k t suf : List Char), suf ∈ PLURAL_SUFFIXES →
      find_plural_suffix_in_values (.obj [(k, .str (t ++ (suf ++ ['\n'])))])
        = [pluralError k suf])
    ∧ (∀ (k value : List Char), ['\n', '\n'] <:+ value →
      find_plural_suffix_in_values (.obj [(k, .str value)]) = []) := by
  constructor
  · intro k t suf hmem
    have hs : pluralSearch (t ++ (suf ++ ['\n'])) = some suf :=
      pluralSearch_eq_some _ suf hmem (Or.inr (List.suffix_append t (suf ++ ['\n'])))
    change [(k, JsonValue.str (t ++ (suf ++ ['\n'])))].foldl pluralStep [] = _
    rw [foldl_pluralStep]
    simp [pluralCheck, hs]
  · intro k value hnn
    have hlast : ∀ x ∈ PLURAL_SUFFIXES, x ≠ [] ∧ x.getLast? ≠ some '\n' := by decide
    have hlen : ∀ x ∈ PLURAL_SUFFIXES, 2 < (x ++ ['\n']).length := by decide
    have hs : pluralSearch value = none := by
      cases hp : pluralSearch value with
      | none => rfl
      | some suf =>
        exfalso
        obtain ⟨hmem, hhit⟩ := (pluralSearch_some_iff value suf).mp hp
        have hvl : value.getLast? = some '\n' := by
          have := getLast?_of_suffix hnn (by simp)
          simpa using this
        rcases hhit with h | h
        · have hg := getLast?_of_suffix h (hlast suf hmem).1
          rw [hvl] at hg
          exact (hlast suf hmem).2 hg.symm
        · rcases List.suffix_or_suffix_of_suffix h hnn with h2 | h2
          · have hle := h2.length_le
            have hgt := hlen suf hmem
            simp at hle hgt
            omega
          · have h3 : ['\n'] <:+ suf :=
              suffix_snoc_cancel (show (['\n'] ++ ['\n']) <:+ suf ++ ['\n'] from h2)
            have h4 := getLast?_of_suffix h3 (by simp)
            exact (hlast suf hmem).2 (by simpa using h4)
    change [(k, JsonValue.str value)].foldl pluralStep [] = _
    rw [foldl_pluralStep]
    simp [pluralCheck, hs]

theorem claim9_newline_anchor_witness :
    find_plural_suffix_in_values
        (.obj [("k".toList, .str ("items".toList ++ ("_one".toList ++ ['\n'])))])
      = [pluralError "k".toList "_one".toList] :=
  claim9_newline_anchor.1 "k".toList "items".toList "_one".toList (by decide)

/-- C3: validation is total -- validating a list of N files yields exactly N
results, and every read or parse failure becomes a single synthetic finding
instead of an uncaught exception (the embedding's `FileSystem` codomain is
exactly the set of outcomes the two `except` arms of the source handle). -/
theorem claim3_total_validation :
    ∀ (fs : FileSystem) (paths : List (List Char)),
    ((paths.map (fun p => validate_translation_file fs p)).length = paths.length)
    ∧ (∀ (p : List Char) (e : PyExc), fs (pathStr p) = .error e →
        (validate_translation_file fs p).2.length = 1) := by
  intro fs paths
  constructor
  · simp
  · intro p e h
    cases e <;> simp [validate_translation_file, h]

theorem claim3_total_validation_witness :
    (validate_translation_file (fun _ => .error (.otherExc "boom".toList))
        "a.json".toList).2.length = 1 :=
  (claim3_total_validation (fun _ => .error (.otherExc "boom".toList))
      ["a.json".toList]).2 "a.json".toList (.otherExc "boom".toList) rfl

/-- C4: a JSON syntax error yields exactly one finding of the parse-error
kind, key `"FILE"`, whose message carries the parser's description and the
1-based line and column, with neither detector run (the result is exactly
that one finding); any other read failure yields exactly one finding of the
distinct read-error kind; the two kinds are distinct strings, so a syntax
error is never classified as a generic read error. -/
theorem claim4_error_taxonomy :
    ∀ (fs : FileSystem) (filepath : List Char),
    (∀ (msg : List Char) (lineno colno : Nat),
      fs (pathStr filepath) = .error (.jsonDecodeError msg lineno colno) →
      validate_translation_file fs filepath
        = (false, [⟨"FILE".toList, "JSON Parse Error".toList,
            "Invalid JSON: ".toList ++ msg ++ " at line ".toList ++ natStr lineno
              ++ ", column ".toList ++ natStr colno⟩]))
    ∧ (∀ msg : List Char,
      fs (pathStr filepath) = .error (.otherExc msg) →
      validate_translation_file fs filepath
        = (false, [⟨"FILE".toList, "Error".toList,
            "Failed to read file: ".toList ++ msg⟩]))
    ∧ "JSON Parse Error".toList ≠ "Error".toList := by
  intro fs filepath
  refine ⟨?_, ?_, by decide⟩
  · intro msg lineno colno h
    simp [validate_translation_file, h]
  · intro msg h
    simp [validate_translation_file, h]

theorem claim4_error_taxonomy_witness :
    validate_translation_file
        (fun _ => .error (.jsonDecodeError "Expecting value".toList 2 5))
        "x.json".toList
      = (false, [⟨"FILE".toList, "JSON Parse Error".toList,
          "Invalid JSON: ".toList ++ "Expecting value".toList ++ " at line ".toList
            ++ natStr 2 ++ ", column ".toList ++ natStr 5⟩]) :=
  (claim4_error_taxonomy (fun _ => .error (.jsonDecodeError "Expecting value".toList 2 5))
      "x.json".toList).1 "Expecting value".toList 2 5 rfl

/-- C6: on a successfully parsed file, the finding sequence is exactly the
Empty-Value Detector's findings followed by the Plural-Suffix Detector's
findings, in that order (each rule iterates the catalog in insertion
order, as the per-rule characterisations state). -/
theorem claim6_rule_order :
    ∀ (fs : FileSystem) (filepath : List Char) (data : JsonValue),
    fs (pathStr filepath) = .ok data →
    (validate_translation_file fs filepath).2
      = find_empty_translations data ++ find_plural_suffix_in_values data := by
  intro fs filepath data h
  simp [validate_translation_file, h]

theorem claim6_rule_order_witness :
    (validate_translation_file
        (fun _ => .ok (.obj [("a".toList, .str [])])) "x.json".toList).2
      = find_empty_translations (.obj [("a".toList, .str [])])
        ++ find_plural_suffix_in_values (.obj [("a".toList, .str [])]) :=
  claim6_rule_order (fun _ => .ok (.obj [("a".toList, .str [])]))
    "x.json".toList (.obj [("a".toList, .str [])]) rfl

/-- C7: the boolean verdict of `validate_translation_file` is true iff the
returned finding sequence is empty -- the verdict is computed from the
findings and nothing else. -/
theorem claim7_ok_iff_no_findings :
    ∀ (fs : FileSystem) (filepath : List Char),
    (validate_translation_file fs filepath).1 = true
      ↔ (validate_translation_file fs filepath).2 = [] := by
  intro fs filepath
  unfold validate_translation_file
  simp [List.isEmpty_iff]

/-- C2 counterexample: for the directory string `"translations/\\"` (a
forward slash followed by a backslash at the end), the claim's normalisation
-- backslashes to slashes, trailing separators ignored -- leaves
`"translations"`, which is a full path component of
`"translations/en.json"`, yet `should_process_file` rejects the file: the
source strips trailing `'/'` before trailing `'\\'`, so a slash that
precedes a trailing backslash survives and the wrapped substring test
`'/translations//' in '/translations/en.json/'` fails. -/
theorem claim2_mixed_separators_cex :
    should_process_file "translations/en.json".toList
        ["translations/\\".toList] = false
    ∧ claimComponentMatch "translations/\\".toList
        "translations/en.json".toList = true := by
  constructor
  · rfl
  · rfl

/-- C2 (amended): `should_process_file` accepts everything when the
directory set is empty; otherwise it accepts a path iff some directory
string -- normalised by stripping all trailing forward slashes, then all
trailing backslashes, then replacing backslashes with forward slashes --
occurs as a full consecutive component sequence of the candidate path's
component sequence (so never as a substring of a longer component or of a
longer filename, and matched case-sensitively); an empty candidate path
(rendered `"."` by the path type) therefore matches only a directory string
that normalises to `"."`. -/
theorem claim2_path_filter :
    ∀ (filepath : List Char) (translation_dirs : List (List Char)),
    should_process_file filepath translation_dirs = true
      ↔ (translation_dirs = []
          ∨ ∃ trans_dir ∈ translation_dirs,
              splitSep '/' (normalizedDir trans_dir)
                <:+: splitSep '/' (candidateStr filepath)) := by
  intro filepath translation_dirs
  unfold should_process_file
  by_cases hdirs : translation_dirs.isEmpty
  · rw [if_pos hdirs]
    simp [List.isEmpty_iff.mp hdirs]
  · rw [if_neg hdirs]
    have hne : translation_dirs ≠ [] := by
      intro h
      rw [h] at hdirs
      exact hdirs rfl
    rw [List.any_eq_true]
    constructor
    · intro hex
      obtain ⟨d, hd, hcheck⟩ := hex
      refine Or.inr ⟨d, hd, ?_⟩
      rcases Bool.or_eq_true_iff.mp hcheck with h | h
      · exact (wrap_infix_iff '/' (normalizedDir d) (candidateStr filepath)).mp
          ((isSublistB_iff _ _).mp h)
      · have hpre := List.isPrefixOf_iff_prefix.mp h
        obtain ⟨rest, hrest⟩ := hpre
        apply (wrap_infix_iff '/' _ _).mp
        refine ⟨[], rest ++ ['/'], ?_⟩
        rw [← hrest]
        simp [List.append_assoc]
    · intro h
      rcases h with h | ⟨d, hd, hcomp⟩
      · exact absurd h hne
      · refine ⟨d, hd, ?_⟩
        apply Bool.or_eq_true_iff.mpr
        exact Or.inl ((isSublistB_iff _ _).mpr ((wrap_infix_iff '/' _ _).mpr hcomp))

/-- C10: when the candidate path's final component equals the normalised
directory (and nothing follows it), the filter accepts the path, because the
wrapped substring test `'/{dir}/' in '/{path}/'` encloses the final
component in separators too. -/
theorem claim10_last_component :
    ∀ (trans_dir filepath : List Char),
    normalizedDir trans_dir ≠ [] →
    (splitSep '/' (candidateStr filepath)).getLast?
      = some (normalizedDir trans_dir) →
    should_process_file filepath [trans_dir] = true := by
  intro trans_dir filepath hne hlast
  have hshape : ∃ L, splitSep '/' (candidateStr filepath)
      = L ++ [normalizedDir trans_dir] := by
    rcases List.eq_nil_or_concat' (splitSep '/' (candidateStr filepath))
      with h | ⟨L, b, h⟩
    · exact absurd h (splitSep_ne_nil _ _)
    · rw [h, List.getLast?_concat] at hlast
      injection hlast with hb
      exact ⟨L, by rw [h, hb]⟩
  obtain ⟨L, hL⟩ := hshape
  have hjoin : candidateStr filepath
      = joinSep '/' (L ++ [normalizedDir trans_dir]) := by
    rw [← hL, joinSep_splitSep]
  have hwrap : ('/' :: normalizedDir trans_dir ++ ['/'])
      <:+: ('/' :: candidateStr filepath ++ ['/']) := by
    cases L with
    | nil =>
      rw [hjoin]
      simp only [List.nil_append, joinSep]
      exact List.infix_rfl
    | cons x L' =>
      rw [hjoin, joinSep_append '/' (x :: L') [normalizedDir trans_dir]
        (by simp) (by simp)]
      refine ⟨'/' :: joinSep '/' (x :: L'), [], ?_⟩
      simp [joinSep]
  unfold should_process_file
  rw [if_neg (by simp)]
  apply List.any_eq_true.mpr
  refine ⟨trans_dir, List.mem_cons_self trans_dir [], ?_⟩
  apply Bool.or_eq_true_iff.mpr
  exact Or.inl ((isSublistB_iff _ _).mpr hwrap)

theorem claim10_last_component_witness :
    should_process_file "foo/translations".toList
      ["translations/".toList] = true :=
  claim10_last_component "translations/".toList "foo/translations".toList
    (by decide) (by decide)

/-- C8: `main` returns the failure exit code iff at least one in-scope,
`.json`-suffixed file validates as not ok, and otherwise -- including for an
empty file list -- the pass exit code; no other value is ever returned. -/
theorem claim8_exit_code :
    ∀ (filenames : List (List Char)) (translation_dir : List Char)
      (fs : FileSystem),
    (i18n_validator.main filenames translation_dir fs = FAIL
      ↔ ∃ f ∈ filenames,
          lowerStr (pathSuffix f) = ".json".toList
          ∧ should_process_file f (translationDirsOf translation_dir) = true
          ∧ (validate_translation_file fs f).1 = false)
    ∧ (i18n_validator.main filenames translation_dir fs = PASS
        ∨ i18n_validator.main filenames translation_dir fs = FAIL) := by
  intro filenames translation_dir fs
  unfold i18n_validator.main
  by_cases hemp : filenames.isEmpty
  · rw [if_pos hemp]
    have hnil : filenames = [] := List.isEmpty_iff.mp hemp
    subst hnil
    refine ⟨⟨fun h => absurd h (by decide), fun h => ?_⟩, Or.inl rfl⟩
    obtain ⟨f, hf, _⟩ := h
    cases hf
  · rw [if_neg hemp, foldl_fileStep]
    constructor
    · by_cases hany :
        filenames.any (fileFails fs (translationDirsOf translation_dir)) = true
      · rw [if_pos hany]
        constructor
        · intro _
          obtain ⟨f, hf, hff⟩ := List.any_eq_true.mp hany
          refine ⟨f, hf, ?_⟩
          unfold fileFails at hff
          simp only [Bool.and_eq_true, decide_eq_true_eq,
            Bool.not_eq_true'] at hff
          exact ⟨hff.1.1, hff.1.2, hff.2⟩
        · intro _
          rfl
      · rw [if_neg hany]
        constructor
        · intro h
          exact absurd h (by decide)
        · intro h
          obtain ⟨f, hf, h1, h2, h3⟩ := h
          exfalso
          apply hany
          refine List.any_eq_true.mpr ⟨f, hf, ?_⟩
          unfold fileFails
          simp only [Bool.and_eq_true, decide_eq_true_eq, Bool.not_eq_true']
          exact ⟨⟨h1, h2⟩, h3⟩
    · by_cases hany :
        filenames.any (fileFails fs (translationDirsOf translation_dir)) = true
      · rw [if_pos hany]
        exact Or.inr rfl
      · rw [if_neg hany]
        exact Or.inl rfl
